import Mathlib

/-!
Shallow embedding of the `monkey-rs` lexical analyser
(`src/token.rs`, `src/lexer.rs`).

The Rust `String` input is modelled as a `List Char` (Rust code accesses
it exclusively through `chars()`), `usize` indices as `Nat`, and
`Option<char>` as `Option Char`.  Each Rust method becomes a pure Lean
function on an explicit `Lexer` state; the three `while let` scanning
loops are expressed through one fuel-indexed structural loop `scan_loop`
whose fuel `scan_measure` is proved sufficient (lemma `run_scan_eq`
recovers the exact one-step unfolding of the Rust loops).
-/

namespace Monkey

/-- The `Token` enum of `src/token.rs`: a closed tagged variant.
String payloads are modelled as `List Char`. -/
inductive Token where
  | Illegal (s : List Char)
  | Eof
  | Ident (s : List Char)
  | Int (s : List Char)
  | Assign
  | Plus
  | Minus
  | Bang
  | Asterisk
  | Slash
  | Lt
  | Gt
  | Equal
  | NotEqual
  | Comma
  | Semicolon
  | Lparen
  | Rparen
  | Lbrace
  | Rbrace
  | Function
  | Let
  | If
  | Else
  | Return
  | True
  | False
  deriving DecidableEq

/-- `lookup_ident` of `src/token.rs`: exact match against the seven
reserved words, every other string becomes an `Ident` with the text
unchanged. -/
def lookup_ident (ident : List Char) : Token :=
  if ident = "fn".toList then Token.Function
  else if ident = "let".toList then Token.Let
  else if ident = "if".toList then Token.If
  else if ident = "else".toList then Token.Else
  else if ident = "return".toList then Token.Return
  else if ident = "true".toList then Token.True
  else if ident = "false".toList then Token.False
  else Token.Ident ident

/-- The `Lexer` struct of `src/lexer.rs`. -/
structure Lexer where
  input : List Char
  position : Nat
  read_position : Nat
  ch : Option Char
  deriving DecidableEq

/-- `Lexer::peek_char`: the character at `read_position`, or `None`
once `read_position` has passed the end of the input. -/
def peek_char (l : Lexer) : Option Char :=
  if l.input.length ≤ l.read_position then none
  else l.input[l.read_position]?

/-- `Lexer::read_char`: load the peeked character and step both
indices forward. -/
def read_char (l : Lexer) : Lexer :=
  { l with ch := peek_char l
         , position := l.read_position
         , read_position := l.read_position + 1 }

/-- `Lexer::new`: zero-initialise the struct, then `read_char` once so
the first character (if any) becomes current. -/
def Lexer.new (input : List Char) : Lexer :=
  read_char { input := input, position := 0, read_position := 0, ch := none }

/-- `Lexer::is_letter`: ASCII alphabetic or underscore
(`ch.is_ascii_alphabetic() || ch == '_'`; `Char.isAlpha` is the same
ASCII-ranges test as Rust's `is_ascii_alphabetic`). -/
def is_letter (c : Char) : Bool :=
  c.isAlpha || c = '_'

/-- Rust's `char::is_whitespace`: the Unicode `White_Space` property,
which is exactly the 25 code points enumerated here. -/
def rust_is_whitespace (c : Char) : Bool :=
  c = Char.ofNat 0x09 || c = Char.ofNat 0x0A || c = Char.ofNat 0x0B ||
  c = Char.ofNat 0x0C || c = Char.ofNat 0x0D || c = Char.ofNat 0x20 ||
  c = Char.ofNat 0x85 || c = Char.ofNat 0xA0 || c = Char.ofNat 0x1680 ||
  c = Char.ofNat 0x2000 || c = Char.ofNat 0x2001 || c = Char.ofNat 0x2002 ||
  c = Char.ofNat 0x2003 || c = Char.ofNat 0x2004 || c = Char.ofNat 0x2005 ||
  c = Char.ofNat 0x2006 || c = Char.ofNat 0x2007 || c = Char.ofNat 0x2008 ||
  c = Char.ofNat 0x2009 || c = Char.ofNat 0x200A || c = Char.ofNat 0x2028 ||
  c = Char.ofNat 0x2029 || c = Char.ofNat 0x202F || c = Char.ofNat 0x205F ||
  c = Char.ofNat 0x3000

/-- Fuel bound for the scanning loops: each `read_char` step increments
`read_position`, and the loop guard fails at the latest when
`read_position` has passed the input length (so `ch` is `none`). -/
def scan_measure (l : Lexer) : Nat :=
  l.input.length + 1 - l.read_position + (if l.ch.isSome then 1 else 0)

/-- The common shape of the three `while let Some(c) = self.ch` loops in
`src/lexer.rs` (`skip_whitespace`, `read_identifier`, `read_number`):
step with `read_char` while the current character satisfies `p`.  The
structural fuel makes the function computable; `run_scan_eq` below shows
the fuel `scan_measure` never runs out. -/
def scan_loop (p : Char → Bool) : Nat → Lexer → Lexer
  | 0, l => l
  | fuel + 1, l =>
    match l.ch with
    | some c => if p c then scan_loop p fuel (read_char l) else l
    | none => l

/-- Run a scanning loop to completion. -/
def run_scan (p : Char → Bool) (l : Lexer) : Lexer :=
  scan_loop p (scan_measure l) l

/-- `Lexer::skip_whitespace`. -/
def skip_whitespace (l : Lexer) : Lexer :=
  run_scan rust_is_whitespace l

/-- `Lexer::read_range`: `chars().skip(start).take(stop - start)`. -/
def read_range (l : Lexer) (start stop : Nat) : List Char :=
  (l.input.drop start).take (stop - start)

/-- `Lexer::read_identifier`: remember the start position, scan a run
of letter characters, extract the traversed range. -/
def read_identifier (l : Lexer) : List Char × Lexer :=
  let pos := l.position
  let l' := run_scan is_letter l
  (read_range l' pos l'.position, l')

/-- `Lexer::read_number`: same shape with the ASCII-digit class. -/
def read_number (l : Lexer) : List Char × Lexer :=
  let pos := l.position
  let l' := run_scan Char.isDigit l
  (read_range l' pos l'.position, l')

/-- `Lexer::next_token`.  Returns the token together with the successor
state.  The Rust `match` on the current character is rendered as an
`if`-cascade over the same literals in the same order (the two-character
arms test the peeked option against `some '='`, exactly Rust's
`match Some('=') / _` split); branches that in
Rust fall through to the trailing `self.read_char()` apply `read_char`
to their result state, while the three early-`return` branches
(identifier, number, illegal) do not — in particular the illegal branch
returns the state unchanged, exactly as the Rust code does. -/
def next_token (l0 : Lexer) : Token × Lexer :=
  let l := skip_whitespace l0
  match l.ch with
  | none => (Token.Eof, read_char l)
  | some c =>
    if c = '=' then
      if peek_char l = some '=' then (Token.Equal, read_char (read_char l))
      else (Token.Assign, read_char l)
    else if c = ';' then (Token.Semicolon, read_char l)
    else if c = '(' then (Token.Lparen, read_char l)
    else if c = ')' then (Token.Rparen, read_char l)
    else if c = Char.ofNat 0x7b then (Token.Lbrace, read_char l)
    else if c = Char.ofNat 0x7d then (Token.Rbrace, read_char l)
    else if c = ',' then (Token.Comma, read_char l)
    else if c = '+' then (Token.Plus, read_char l)
    else if c = '-' then (Token.Minus, read_char l)
    else if c = '!' then
      if peek_char l = some '=' then (Token.NotEqual, read_char (read_char l))
      else (Token.Bang, read_char l)
    else if c = '*' then (Token.Asterisk, read_char l)
    else if c = '/' then (Token.Slash, read_char l)
    else if c = '<' then (Token.Lt, read_char l)
    else if c = '>' then (Token.Gt, read_char l)
    else if is_letter c then
      let r := read_identifier l
      (lookup_ident r.1, r.2)
    else if c.isDigit then
      let r := read_number l
      (Token.Int r.1, r.2)
    else (Token.Illegal [c], l)

/-- The lexer state after `n` calls to `next_token` (the drain loop of
`src/repl.rs` drives the lexer exactly this way). -/
def lexState (l : Lexer) : Nat → Lexer
  | 0 => l
  | n + 1 => lexState (next_token l).2 n

/-- The `(n+1)`-st token produced from state `l`. -/
def tokenAt (l : Lexer) (n : Nat) : Token :=
  (next_token (lexState l n)).1

/-- The first `n` tokens produced from state `l`. -/
def tokenList (l : Lexer) : Nat → List Token
  | 0 => []
  | n + 1 => (next_token l).1 :: tokenList (next_token l).2 n

/-- The cursor invariant of every reachable lexer state: the read-ahead
index is one past the current position and the cached character is the
input character at the current position (`none` past the end). -/
def Inv (l : Lexer) : Prop :=
  l.read_position = l.position + 1 ∧ l.ch = l.input[l.position]?

/-- The cursor invariant as the specification phrases it: read-ahead is
`current + 1`, and the optional current character is present — and equal
to the source character there — exactly when the current position is
within the source. -/
def cursor_inv (l : Lexer) : Prop :=
  l.read_position = l.position + 1 ∧
  l.ch = l.input[l.position]? ∧
  (l.ch.isSome ↔ l.position < l.input.length)


theorem read_char_input (l : Lexer) : (read_char l).input = l.input := rfl

theorem read_char_position (l : Lexer) : (read_char l).position = l.read_position := rfl

theorem read_char_read_position (l : Lexer) :
    (read_char l).read_position = l.read_position + 1 := rfl

theorem read_char_ch (l : Lexer) : (read_char l).ch = peek_char l := rfl

theorem getElem?_isSome_iff {α : Type} (xs : List α) (i : Nat) :
    (xs[i]?).isSome = true ↔ i < xs.length := by
  by_cases h : i < xs.length
  · simp [List.getElem?_eq_getElem h, h]
  · simp [List.getElem?_eq_none (Nat.le_of_not_lt h), h]

theorem peek_char_eq (l : Lexer) : peek_char l = l.input[l.read_position]? := by
  unfold peek_char
  split
  · exact (List.getElem?_eq_none (by assumption)).symm
  · rfl

theorem Inv_read_char (l : Lexer) : Inv (read_char l) := by
  refine ⟨rfl, ?_⟩
  simpa using peek_char_eq l

theorem Inv_new (s : List Char) : Inv (Lexer.new s) := Inv_read_char _

theorem scan_measure_lt {l : Lexer} {c : Char} (h : l.ch = some c) :
    scan_measure (read_char l) < scan_measure l := by
  unfold scan_measure
  rw [read_char_read_position, read_char_input, read_char_ch, peek_char_eq, h]
  by_cases hlt : l.read_position < l.input.length
  · rw [List.getElem?_eq_getElem hlt]
    simp only [Option.isSome_some, if_true]
    omega
  · rw [List.getElem?_eq_none (Nat.le_of_not_lt hlt)]
    simp
    omega

theorem scan_loop_none {p : Char → Bool} {l : Lexer} (h : l.ch = none) :
    ∀ n, scan_loop p n l = l := by
  intro n
  cases n with
  | zero => rfl
  | succ n => simp [scan_loop, h]

theorem scan_measure_pos {l : Lexer} {c : Char} (h : l.ch = some c) :
    1 ≤ scan_measure l := by
  unfold scan_measure
  rw [h]
  simp

theorem scan_loop_fuel_irrel (p : Char → Bool) :
    ∀ (n m : Nat) (l : Lexer), scan_measure l ≤ n → scan_measure l ≤ m →
      scan_loop p n l = scan_loop p m l := by
  intro n
  induction n with
  | zero =>
    intro m l hn _
    cases hch : l.ch with
    | none => rw [scan_loop_none hch, scan_loop_none hch]
    | some c => exact absurd hn (by have := scan_measure_pos hch; omega)
  | succ n ih =>
    intro m l hn hm
    cases hch : l.ch with
    | none => rw [scan_loop_none hch, scan_loop_none hch]
    | some c =>
      have h1 := scan_measure_pos hch
      obtain ⟨m', rfl⟩ : ∃ m', m = m' + 1 := ⟨m - 1, by omega⟩
      simp only [scan_loop, hch]
      by_cases hp : p c
      · simp only [hp, if_true]
        have hlt := scan_measure_lt hch
        exact ih m' (read_char l) (by omega) (by omega)
      · simp [hp]

theorem run_scan_eq (p : Char → Bool) (l : Lexer) :
    run_scan p l =
      match l.ch with
      | some c => if p c then run_scan p (read_char l) else l
      | none => l := by
  cases hch : l.ch with
  | none => simp only [run_scan]; rw [scan_loop_none hch]
  | some c =>
    have h1 := scan_measure_pos hch
    obtain ⟨k, hk⟩ : ∃ k, scan_measure l = k + 1 := ⟨scan_measure l - 1, by omega⟩
    simp only [run_scan, hk, scan_loop, hch]
    by_cases hp : p c
    · simp only [hp, if_true]
      have hlt := scan_measure_lt hch
      exact scan_loop_fuel_irrel p k _ (read_char l) (by omega) (le_refl _)
    · simp [hp]


theorem run_scan_spec_aux (N : Nat) (p : Char → Bool) :
    ∀ l : Lexer, l.input.length - l.position ≤ N → Inv l →
      run_scan p l =
        { input := l.input
        , position := l.position + ((l.input.drop l.position).takeWhile p).length
        , read_position := l.position + ((l.input.drop l.position).takeWhile p).length + 1
        , ch := l.input[l.position + ((l.input.drop l.position).takeWhile p).length]? } := by
  induction N with
  | zero =>
    intro l hN hInv
    obtain ⟨hrp, hch⟩ := hInv
    have hle : l.input.length ≤ l.position := by omega
    have hdrop : l.input.drop l.position = [] := List.drop_eq_nil_of_le hle
    have hnone : l.input[l.position]? = none := List.getElem?_eq_none hle
    rw [run_scan_eq]
    rw [hch, hnone]
    obtain ⟨inp, pos, rp, ch⟩ := l
    simp only [Lexer.mk.injEq] at *
    simp [hdrop, hrp, hch, hnone]
  | succ N ih =>
    intro l hN hInv
    obtain ⟨hrp, hch⟩ := hInv
    rw [run_scan_eq]
    cases hchv : l.ch with
    | none =>
      have hle : l.input.length ≤ l.position := by
        by_contra hlt
        rw [hch, List.getElem?_eq_getElem (Nat.lt_of_not_le hlt)] at hchv
        exact Option.noConfusion hchv
      have hdrop : l.input.drop l.position = [] := List.drop_eq_nil_of_le hle
      have hnone : l.input[l.position]? = none := List.getElem?_eq_none hle
      obtain ⟨inp, pos, rp, ch⟩ := l
      simp only at *
      simp [hdrop, hrp, hch, hnone]
    | some c =>
      have hlt : l.position < l.input.length := by
        by_contra hge
        rw [hch, List.getElem?_eq_none (Nat.le_of_not_lt hge)] at hchv
        exact Option.noConfusion hchv
      have hcval : l.input[l.position] = c := by
        rw [hch, List.getElem?_eq_getElem hlt] at hchv
        exact Option.some.inj hchv
      have hdrop : l.input.drop l.position = c :: l.input.drop (l.position + 1) := by
        rw [← List.getElem_cons_drop l.input l.position hlt, hcval]
      by_cases hp : p c
      · simp only [hp, if_true]
        have hrc : Inv (read_char l) := Inv_read_char l
        have hpos : (read_char l).position = l.position + 1 := by
          rw [read_char_position, hrp]
        have hinp : (read_char l).input = l.input := read_char_input l
        have hrec := ih (read_char l) (by rw [hpos, hinp]; omega) hrc
        rw [hrec, hpos, hinp, hdrop]
        simp only [List.takeWhile_cons, hp, if_true, List.length_cons, Lexer.mk.injEq]
        refine ⟨trivial, by omega, by omega, ?_⟩
        congr 1
        omega
      · simp only [hp, if_false]
        rw [hdrop]
        simp only [List.takeWhile_cons, hp, Bool.false_eq_true, if_false,
          List.length_nil, Nat.add_zero]
        obtain ⟨inp, pos, rp, ch⟩ := l
        simp only at *
        simp [hrp, hch]

theorem run_scan_spec {p : Char → Bool} {l : Lexer} (hInv : Inv l) :
    run_scan p l =
      { input := l.input
      , position := l.position + ((l.input.drop l.position).takeWhile p).length
      , read_position := l.position + ((l.input.drop l.position).takeWhile p).length + 1
      , ch := l.input[l.position + ((l.input.drop l.position).takeWhile p).length]? } :=
  run_scan_spec_aux (l.input.length - l.position) p l (le_refl _) hInv


theorem letter_not_ws {c : Char} (h : is_letter c = true) :
    rust_is_whitespace c = false := by
  cases hw : rust_is_whitespace c with
  | false => rfl
  | true =>
    exfalso
    simp only [rust_is_whitespace, Bool.or_eq_true, decide_eq_true_eq, or_assoc] at hw
    rcases hw with (rfl|rfl|rfl|rfl|rfl|rfl|rfl|rfl|rfl|rfl|rfl|rfl|rfl|
      rfl|rfl|rfl|rfl|rfl|rfl|rfl|rfl|rfl|rfl|rfl|rfl) <;>
      exact absurd h (by decide)

theorem digit_not_ws {c : Char} (h : c.isDigit = true) :
    rust_is_whitespace c = false := by
  cases hw : rust_is_whitespace c with
  | false => rfl
  | true =>
    exfalso
    simp only [rust_is_whitespace, Bool.or_eq_true, decide_eq_true_eq, or_assoc] at hw
    rcases hw with (rfl|rfl|rfl|rfl|rfl|rfl|rfl|rfl|rfl|rfl|rfl|rfl|rfl|
      rfl|rfl|rfl|rfl|rfl|rfl|rfl|rfl|rfl|rfl|rfl|rfl) <;>
      exact absurd h (by decide)

theorem digit_not_letter {c : Char} (h : c.isDigit = true) :
    is_letter c = false := by
  cases hl : is_letter c with
  | false => rfl
  | true =>
    exfalso
    simp only [Char.isDigit, Bool.and_eq_true, decide_eq_true_eq] at h
    simp only [is_letter, Char.isAlpha, Char.isUpper, Char.isLower,
      Bool.or_eq_true, Bool.and_eq_true, decide_eq_true_eq] at hl
    rcases hl with (⟨h1, h2⟩ | ⟨h1, h2⟩) | rfl
    · exact absurd (UInt32.le_trans h1 h.2) (by decide)
    · exact absurd (UInt32.le_trans h1 h.2) (by decide)
    · exact absurd h (by decide)

theorem letter_ne {c x : Char} (h : is_letter c = true)
    (hx : is_letter x = false) : ¬ (c = x) := by
  intro e
  subst e
  rw [h] at hx
  exact Bool.noConfusion hx

theorem digit_ne {c x : Char} (h : c.isDigit = true)
    (hx : x.isDigit = false) : ¬ (c = x) := by
  intro e
  subst e
  rw [h] at hx
  exact Bool.noConfusion hx

theorem Inv_run_scan {p : Char → Bool} {l : Lexer} (h : Inv l) :
    Inv (run_scan p l) := by
  rw [run_scan_spec h]
  exact ⟨rfl, rfl⟩

theorem run_scan_input {p : Char → Bool} {l : Lexer} (h : Inv l) :
    (run_scan p l).input = l.input := by
  rw [run_scan_spec h]

theorem run_scan_position {p : Char → Bool} {l : Lexer} (h : Inv l) :
    (run_scan p l).position
      = l.position + ((l.input.drop l.position).takeWhile p).length := by
  rw [run_scan_spec h]

theorem skip_whitespace_of_not_ws {l : Lexer} {c : Char} (hch : l.ch = some c)
    (hws : rust_is_whitespace c = false) : skip_whitespace l = l := by
  unfold skip_whitespace
  rw [run_scan_eq, hch]
  simp [hws]

theorem skip_whitespace_of_none {l : Lexer} (hch : l.ch = none) :
    skip_whitespace l = l := by
  unfold skip_whitespace
  rw [run_scan_eq, hch]

theorem drop_cons_of_inv {l : Lexer} {c : Char} (h : Inv l) (hch : l.ch = some c) :
    l.input.drop l.position = c :: l.input.drop (l.position + 1) := by
  obtain ⟨-, hc2⟩ := h
  rw [hch] at hc2
  have hlt : l.position < l.input.length := by
    by_contra hge
    rw [List.getElem?_eq_none (Nat.le_of_not_lt hge)] at hc2
    exact Option.noConfusion hc2
  have hval : l.input[l.position] = c := by
    rw [List.getElem?_eq_getElem hlt] at hc2
    exact (Option.some.inj hc2).symm
  rw [← List.getElem_cons_drop l.input l.position hlt, hval]

theorem all_takeWhile (p : Char → Bool) (xs : List Char) :
    (xs.takeWhile p).all p = true := by
  rw [List.all_eq_true]
  intro x hx
  exact List.mem_takeWhile_imp hx

theorem read_identifier_fst {l : Lexer} (h : Inv l) :
    (read_identifier l).1 = (l.input.drop l.position).takeWhile is_letter := by
  unfold read_identifier read_range
  simp only
  rw [run_scan_input h, run_scan_position h]
  have harith : l.position + ((l.input.drop l.position).takeWhile is_letter).length
      - l.position = ((l.input.drop l.position).takeWhile is_letter).length := by omega
  rw [harith]
  exact ((List.prefix_iff_eq_take).mp (List.takeWhile_prefix _)).symm

theorem read_identifier_snd (l : Lexer) :
    (read_identifier l).2 = run_scan is_letter l := rfl

theorem read_number_fst {l : Lexer} (h : Inv l) :
    (read_number l).1 = (l.input.drop l.position).takeWhile Char.isDigit := by
  unfold read_number read_range
  simp only
  rw [run_scan_input h, run_scan_position h]
  have harith : l.position + ((l.input.drop l.position).takeWhile Char.isDigit).length
      - l.position = ((l.input.drop l.position).takeWhile Char.isDigit).length := by omega
  rw [harith]
  exact ((List.prefix_iff_eq_take).mp (List.takeWhile_prefix _)).symm

theorem read_number_snd (l : Lexer) :
    (read_number l).2 = run_scan Char.isDigit l := rfl


theorem next_token_eof {l : Lexer} (h : (skip_whitespace l).ch = none) :
    next_token l = (Token.Eof, read_char (skip_whitespace l)) := by
  unfold next_token
  simp only [h]

theorem next_token_letter {l : Lexer} {c : Char}
    (hch : (skip_whitespace l).ch = some c) (hl : is_letter c = true) :
    next_token l = (lookup_ident (read_identifier (skip_whitespace l)).1,
                    (read_identifier (skip_whitespace l)).2) := by
  unfold next_token
  simp only [hch]
  rw [if_neg (letter_ne hl (by decide)), if_neg (letter_ne hl (by decide)),
    if_neg (letter_ne hl (by decide)), if_neg (letter_ne hl (by decide)),
    if_neg (letter_ne hl (by decide)), if_neg (letter_ne hl (by decide)),
    if_neg (letter_ne hl (by decide)), if_neg (letter_ne hl (by decide)),
    if_neg (letter_ne hl (by decide)), if_neg (letter_ne hl (by decide)),
    if_neg (letter_ne hl (by decide)), if_neg (letter_ne hl (by decide)),
    if_neg (letter_ne hl (by decide)), if_neg (letter_ne hl (by decide)),
    if_pos hl]

theorem next_token_digit {l : Lexer} {c : Char}
    (hch : (skip_whitespace l).ch = some c) (hd : c.isDigit = true) :
    next_token l = (Token.Int (read_number (skip_whitespace l)).1,
                    (read_number (skip_whitespace l)).2) := by
  unfold next_token
  simp only [hch]
  have hnl : ¬ (is_letter c = true) := by
    intro e
    rw [digit_not_letter hd] at e
    exact Bool.noConfusion e
  rw [if_neg (digit_ne hd (by decide)), if_neg (digit_ne hd (by decide)),
    if_neg (digit_ne hd (by decide)), if_neg (digit_ne hd (by decide)),
    if_neg (digit_ne hd (by decide)), if_neg (digit_ne hd (by decide)),
    if_neg (digit_ne hd (by decide)), if_neg (digit_ne hd (by decide)),
    if_neg (digit_ne hd (by decide)), if_neg (digit_ne hd (by decide)),
    if_neg (digit_ne hd (by decide)), if_neg (digit_ne hd (by decide)),
    if_neg (digit_ne hd (by decide)), if_neg (digit_ne hd (by decide)),
    if_neg hnl, if_pos hd]

theorem Inv_next_token {l : Lexer} (h : Inv l) : Inv (next_token l).2 := by
  have hsw : Inv (skip_whitespace l) := Inv_run_scan h
  cases hch : (skip_whitespace l).ch with
  | none =>
    rw [next_token_eof hch]
    exact Inv_read_char _
  | some c =>
    unfold next_token
    simp only [hch]
    by_cases h1 : c = '='
    · rw [if_pos h1]
      by_cases hpk : peek_char (skip_whitespace l) = some '='
      · rw [if_pos hpk]
        exact Inv_read_char _
      · rw [if_neg hpk]
        exact Inv_read_char _
    rw [if_neg h1]
    by_cases h2 : c = ';'
    · rw [if_pos h2]
      exact Inv_read_char _
    rw [if_neg h2]
    by_cases h3 : c = '('
    · rw [if_pos h3]
      exact Inv_read_char _
    rw [if_neg h3]
    by_cases h4 : c = ')'
    · rw [if_pos h4]
      exact Inv_read_char _
    rw [if_neg h4]
    by_cases h5 : c = Char.ofNat 0x7b
    · rw [if_pos h5]
      exact Inv_read_char _
    rw [if_neg h5]
    by_cases h6 : c = Char.ofNat 0x7d
    · rw [if_pos h6]
      exact Inv_read_char _
    rw [if_neg h6]
    by_cases h7 : c = ','
    · rw [if_pos h7]
      exact Inv_read_char _
    rw [if_neg h7]
    by_cases h8 : c = '+'
    · rw [if_pos h8]
      exact Inv_read_char _
    rw [if_neg h8]
    by_cases h9 : c = '-'
    · rw [if_pos h9]
      exact Inv_read_char _
    rw [if_neg h9]
    by_cases h10 : c = '!'
    · rw [if_pos h10]
      by_cases hpk : peek_char (skip_whitespace l) = some '='
      · rw [if_pos hpk]
        exact Inv_read_char _
      · rw [if_neg hpk]
        exact Inv_read_char _
    rw [if_neg h10]
    by_cases h11 : c = '*'
    · rw [if_pos h11]
      exact Inv_read_char _
    rw [if_neg h11]
    by_cases h12 : c = '/'
    · rw [if_pos h12]
      exact Inv_read_char _
    rw [if_neg h12]
    by_cases h13 : c = '<'
    · rw [if_pos h13]
      exact Inv_read_char _
    rw [if_neg h13]
    by_cases h14 : c = '>'
    · rw [if_pos h14]
      exact Inv_read_char _
    rw [if_neg h14]
    by_cases h15 : is_letter c = true
    · rw [if_pos h15]
      exact Inv_run_scan hsw
    rw [if_neg h15]
    by_cases h16 : c.isDigit = true
    · rw [if_pos h16]
      exact Inv_run_scan hsw
    rw [if_neg h16]
    exact hsw

theorem next_token_cases (l : Lexer) :
    ((next_token l).1 = Token.Eof ∧ (skip_whitespace l).ch = none) ∨
    (∃ c, (skip_whitespace l).ch = some c ∧ is_letter c = true ∧
      next_token l = (lookup_ident (read_identifier (skip_whitespace l)).1,
                      (read_identifier (skip_whitespace l)).2)) ∨
    (∃ c, (skip_whitespace l).ch = some c ∧ c.isDigit = true ∧
      next_token l = (Token.Int (read_number (skip_whitespace l)).1,
                      (read_number (skip_whitespace l)).2)) ∨
    (∃ c, (next_token l).1 = Token.Illegal [c]) ∨
    (next_token l).1 ∈ ([Token.Assign, Token.Equal, Token.Semicolon, Token.Lparen,
      Token.Rparen, Token.Lbrace, Token.Rbrace, Token.Comma, Token.Plus, Token.Minus,
      Token.NotEqual, Token.Bang, Token.Asterisk, Token.Slash, Token.Lt,
      Token.Gt] : List Token) := by
  cases hch : (skip_whitespace l).ch with
  | none => exact Or.inl ⟨by rw [next_token_eof hch], rfl⟩
  | some c =>
    by_cases hl : is_letter c = true
    · exact Or.inr (Or.inl ⟨c, rfl, hl, next_token_letter hch hl⟩)
    by_cases hd : c.isDigit = true
    · exact Or.inr (Or.inr (Or.inl ⟨c, rfl, hd, next_token_digit hch hd⟩))
    unfold next_token
    simp only [hch]
    by_cases h1 : c = '='
    · rw [if_pos h1]
      by_cases hpk : peek_char (skip_whitespace l) = some '='
      · rw [if_pos hpk]
        right; right; right; right; simp
      · rw [if_neg hpk]
        right; right; right; right; simp
    rw [if_neg h1]
    by_cases h2 : c = ';'
    · rw [if_pos h2]
      right; right; right; right; simp
    rw [if_neg h2]
    by_cases h3 : c = '('
    · rw [if_pos h3]
      right; right; right; right; simp
    rw [if_neg h3]
    by_cases h4 : c = ')'
    · rw [if_pos h4]
      right; right; right; right; simp
    rw [if_neg h4]
    by_cases h5 : c = Char.ofNat 0x7b
    · rw [if_pos h5]
      right; right; right; right; simp
    rw [if_neg h5]
    by_cases h6 : c = Char.ofNat 0x7d
    · rw [if_pos h6]
      right; right; right; right; simp
    rw [if_neg h6]
    by_cases h7 : c = ','
    · rw [if_pos h7]
      right; right; right; right; simp
    rw [if_neg h7]
    by_cases h8 : c = '+'
    · rw [if_pos h8]
      right; right; right; right; simp
    rw [if_neg h8]
    by_cases h9 : c = '-'
    · rw [if_pos h9]
      right; right; right; right; simp
    rw [if_neg h9]
    by_cases h10 : c = '!'
    · rw [if_pos h10]
      by_cases hpk : peek_char (skip_whitespace l) = some '='
      · rw [if_pos hpk]
        right; right; right; right; simp
      · rw [if_neg hpk]
        right; right; right; right; simp
    rw [if_neg h10]
    by_cases h11 : c = '*'
    · rw [if_pos h11]
      right; right; right; right; simp
    rw [if_neg h11]
    by_cases h12 : c = '/'
    · rw [if_pos h12]
      right; right; right; right; simp
    rw [if_neg h12]
    by_cases h13 : c = '<'
    · rw [if_pos h13]
      right; right; right; right; simp
    rw [if_neg h13]
    by_cases h14 : c = '>'
    · rw [if_pos h14]
      right; right; right; right; simp
    rw [if_neg h14]
    by_cases h15 : is_letter c = true
    · exact absurd h15 hl
    rw [if_neg h15]
    by_cases h16 : c.isDigit = true
    · exact absurd h16 hd
    rw [if_neg h16]
    right; right; right; left
    exact ⟨c, rfl⟩


theorem lookup_ident_ne_eof (w : List Char) : lookup_ident w ≠ Token.Eof := by
  unfold lookup_ident
  split_ifs <;> simp

theorem lookup_ident_ne_int (w s : List Char) : lookup_ident w ≠ Token.Int s := by
  unfold lookup_ident
  split_ifs <;> simp

theorem lookup_ident_eq_ident {w s : List Char}
    (h : lookup_ident w = Token.Ident s) : s = w := by
  unfold lookup_ident at h
  split_ifs at h
  exact (Token.Ident.inj h).symm

theorem lookup_ident_not_kw {w : List Char}
    (h1 : w ≠ "fn".toList) (h2 : w ≠ "let".toList) (h3 : w ≠ "if".toList)
    (h4 : w ≠ "else".toList) (h5 : w ≠ "return".toList) (h6 : w ≠ "true".toList)
    (h7 : w ≠ "false".toList) : lookup_ident w = Token.Ident w := by
  unfold lookup_ident
  rw [if_neg h1, if_neg h2, if_neg h3, if_neg h4, if_neg h5, if_neg h6, if_neg h7]

theorem next_token_letter_spec {l : Lexer} {c : Char} (hInv : Inv l)
    (hch : l.ch = some c) (hl : is_letter c = true) :
    (next_token l).1
        = lookup_ident ((l.input.drop l.position).takeWhile is_letter) ∧
    (next_token l).2 = run_scan is_letter l := by
  have hsw : skip_whitespace l = l := skip_whitespace_of_not_ws hch (letter_not_ws hl)
  have hnt := next_token_letter (l := l) (by rw [hsw]; exact hch) hl
  rw [hsw] at hnt
  rw [hnt]
  exact ⟨by rw [read_identifier_fst hInv], read_identifier_snd l⟩

theorem next_token_digit_spec {l : Lexer} {c : Char} (hInv : Inv l)
    (hch : l.ch = some c) (hd : c.isDigit = true) :
    (next_token l).1
        = Token.Int ((l.input.drop l.position).takeWhile Char.isDigit) ∧
    (next_token l).2 = run_scan Char.isDigit l := by
  have hsw : skip_whitespace l = l := skip_whitespace_of_not_ws hch (digit_not_ws hd)
  have hnt := next_token_digit (l := l) (by rw [hsw]; exact hch) hd
  rw [hsw] at hnt
  rw [hnt]
  exact ⟨by rw [read_number_fst hInv], read_number_snd l⟩

theorem eof_of_next_token {l : Lexer} (h : (next_token l).1 = Token.Eof) :
    (skip_whitespace l).ch = none := by
  rcases next_token_cases l with ⟨_, hn⟩ | ⟨c, hc, hl, hnt⟩ | ⟨c, hc, hd, hnt⟩
    | ⟨c, hi⟩ | hmem
  · exact hn
  · rw [hnt] at h
    exact absurd h (lookup_ident_ne_eof _)
  · rw [hnt] at h
    simp at h
  · rw [h] at hi
    exact Token.noConfusion hi
  · rw [h] at hmem
    simp at hmem

theorem ch_none_step {l : Lexer} (hInv : Inv l) (h : l.ch = none) :
    next_token l = (Token.Eof, read_char l) ∧ (read_char l).ch = none := by
  have hsw : skip_whitespace l = l := skip_whitespace_of_none h
  obtain ⟨hrp, hch⟩ := hInv
  rw [h] at hch
  have hlen : l.input.length ≤ l.position := by
    by_contra hlt
    rw [List.getElem?_eq_getElem (Nat.lt_of_not_le hlt)] at hch
    exact Option.noConfusion hch
  refine ⟨?_, ?_⟩
  · rw [next_token_eof (by rw [hsw]; exact h), hsw]
  · rw [read_char_ch, peek_char_eq]
    exact List.getElem?_eq_none (by omega)


theorem letters_single_token {w : List Char} (hne : w ≠ [])
    (hall : w.all is_letter = true) :
    tokenList (Lexer.new w) 2 = [lookup_ident w, Token.Eof] := by
  obtain ⟨c, rest, rfl⟩ : ∃ c rest, w = c :: rest := by
    cases w with
    | nil => exact absurd rfl hne
    | cons c rest => exact ⟨c, rest, rfl⟩
  have hInv : Inv (Lexer.new (c :: rest)) := Inv_new _
  have hch : (Lexer.new (c :: rest)).ch = some c := by
    simp [Lexer.new, read_char, peek_char]
  have hc : is_letter c = true := by
    rw [List.all_cons, Bool.and_eq_true] at hall
    exact hall.1
  obtain ⟨h1, h2⟩ := next_token_letter_spec hInv hch hc
  have hpos : (Lexer.new (c :: rest)).position = 0 := rfl
  have hinp : (Lexer.new (c :: rest)).input = c :: rest := rfl
  have htw : (c :: rest).takeWhile is_letter = c :: rest := by
    rw [List.takeWhile_eq_self_iff]
    intro x hx
    rw [List.all_eq_true] at hall
    exact hall x hx
  have hexp : tokenList (Lexer.new (c :: rest)) 2
      = [(next_token (Lexer.new (c :: rest))).1,
         (next_token ((next_token (Lexer.new (c :: rest))).2)).1] := rfl
  have hs := run_scan_spec (p := is_letter) hInv
  have hsch : (run_scan is_letter (Lexer.new (c :: rest))).ch = none := by
    rw [hs]
    simp only [hpos, hinp, List.drop_zero, htw, Nat.zero_add]
    exact List.getElem?_eq_none (le_refl _)
  have hInv2 : Inv (run_scan is_letter (Lexer.new (c :: rest))) := Inv_run_scan hInv
  have h3 := (ch_none_step hInv2 hsch).1
  rw [hexp, h1, h2, h3]
  simp only [hpos, hinp, List.drop_zero, htw]

theorem cursor_inv_of_inv {l : Lexer} (h : Inv l) : cursor_inv l := by
  refine ⟨h.1, h.2, ?_⟩
  rw [h.2]
  exact getElem?_isSome_iff _ _

theorem inv_of_cursor_inv {l : Lexer} (h : cursor_inv l) : Inv l :=
  ⟨h.1, h.2.1⟩


/-- C1: the claim says draining always reaches Eof, even on unrecognized
characters.  The code disagrees: on input "@" the illegal branch returns
without advancing, so every call yields the same Illegal token and Eof is
never produced. -/
theorem C1_illegal_never_eof :
    ∀ n : Nat, tokenAt (Lexer.new ("@".toList)) n = Token.Illegal ("@".toList) ∧
      tokenAt (Lexer.new ("@".toList)) n ≠ Token.Eof := by
  have key : next_token (Lexer.new ("@".toList))
      = (Token.Illegal ("@".toList), Lexer.new ("@".toList)) := by decide
  have hstate : ∀ n, lexState (Lexer.new ("@".toList)) n = Lexer.new ("@".toList) := by
    intro n
    induction n with
    | zero => rfl
    | succ n ih =>
      have hstep : lexState (Lexer.new ("@".toList)) (n + 1)
          = lexState (next_token (Lexer.new ("@".toList))).2 n := rfl
      rw [hstep, key]
      exact ih
  intro n
  unfold tokenAt
  rw [hstate n, key]
  exact ⟨rfl, by decide⟩

/-- C2: on input "@" `next_token` returns an Illegal token (not Eof) while
leaving the whole lexer state — in particular the position index —
unchanged, contradicting the claimed advance of at least one character. -/
theorem C2_illegal_no_advance :
    (next_token (Lexer.new ("@".toList))).1 = Token.Illegal ("@".toList) ∧
    (next_token (Lexer.new ("@".toList))).2.position
      = (Lexer.new ("@".toList)).position ∧
    (next_token (Lexer.new ("@".toList))).2 = Lexer.new ("@".toList) ∧
    Token.Illegal ("@".toList) ≠ Token.Eof := by decide

/-- C3 counterexample: "let1" does not tokenize as a single Ident with the
full text — its first token is the reserved word Let, followed by Int "1". -/
theorem C3_let1_counterexample :
    tokenList (Lexer.new ("let1".toList)) 3
      = [Token.Let, Token.Int ("1".toList), Token.Eof] ∧
    Token.Let ≠ Token.Ident ("let1".toList) := by decide

/-- C3 amended: the exact reserved-word texts yield their dedicated kinds;
a near-miss consisting solely of letters/underscore (such as "iffy"), and
more generally any non-keyword all-letter word, yields a single Ident with
the full text; but a near-miss containing a digit, such as "let1", splits
into the reserved word followed by an Int token, because digits are not
identifier characters. -/
theorem C3_reserved_words_amended :
    tokenList (Lexer.new ("let".toList)) 2 = [Token.Let, Token.Eof] ∧
    tokenList (Lexer.new ("fn".toList)) 2 = [Token.Function, Token.Eof] ∧
    tokenList (Lexer.new ("if".toList)) 2 = [Token.If, Token.Eof] ∧
    tokenList (Lexer.new ("else".toList)) 2 = [Token.Else, Token.Eof] ∧
    tokenList (Lexer.new ("return".toList)) 2 = [Token.Return, Token.Eof] ∧
    tokenList (Lexer.new ("true".toList)) 2 = [Token.True, Token.Eof] ∧
    tokenList (Lexer.new ("false".toList)) 2 = [Token.False, Token.Eof] ∧
    (∀ w : List Char, w ≠ [] → w.all is_letter = true →
      w ≠ "fn".toList → w ≠ "let".toList → w ≠ "if".toList → w ≠ "else".toList →
      w ≠ "return".toList → w ≠ "true".toList → w ≠ "false".toList →
      tokenList (Lexer.new w) 2 = [Token.Ident w, Token.Eof]) ∧
    tokenList (Lexer.new ("iffy".toList)) 2
      = [Token.Ident ("iffy".toList), Token.Eof] ∧
    tokenList (Lexer.new ("let1".toList)) 3
      = [Token.Let, Token.Int ("1".toList), Token.Eof] := by
  refine ⟨by decide, by decide, by decide, by decide, by decide, by decide,
    by decide, ?_, by decide, by decide⟩
  intro w hne hall h1 h2 h3 h4 h5 h6 h7
  rw [letters_single_token hne hall, lookup_ident_not_kw h1 h2 h3 h4 h5 h6 h7]

/-- Witness for the amended C3 theorem: its general clause applied to the
concrete all-letter non-keyword input "iffy". -/
theorem C3_reserved_words_amended_witness :
    tokenList (Lexer.new ("iffy".toList)) 2
      = [Token.Ident ("iffy".toList), Token.Eof] :=
  C3_reserved_words_amended.2.2.2.2.2.2.2.1 ("iffy".toList) (by decide)
    (by decide) (by decide) (by decide) (by decide) (by decide) (by decide)
    (by decide) (by decide)

/-- C4: two-character operator lookahead is greedy with one character of
lookahead: "==" is a single Equal, "=" alone is Assign, "!=" is a single
NotEqual, "!" alone is Bang. -/
theorem C4_two_char_operators :
    tokenList (Lexer.new ("==".toList)) 2 = [Token.Equal, Token.Eof] ∧
    tokenList (Lexer.new ("=".toList)) 2 = [Token.Assign, Token.Eof] ∧
    tokenList (Lexer.new ("!=".toList)) 2 = [Token.NotEqual, Token.Eof] ∧
    tokenList (Lexer.new ("!".toList)) 2 = [Token.Bang, Token.Eof] := by decide


/-- C5: maximal munch.  From any reachable state whose current character
is a letter (resp. ASCII digit), `next_token` consumes exactly the maximal
run of that class starting at the current position and wraps it in a
single token; concretely, "foobar" is one Ident and "12345" one Int. -/
theorem C5_maximal_munch :
    (∀ (l : Lexer) (c : Char), Inv l → l.ch = some c → is_letter c = true →
      (next_token l).1
          = lookup_ident ((l.input.drop l.position).takeWhile is_letter) ∧
      (next_token l).2.position
          = l.position + ((l.input.drop l.position).takeWhile is_letter).length ∧
      (next_token l).2.input = l.input) ∧
    (∀ (l : Lexer) (c : Char), Inv l → l.ch = some c → c.isDigit = true →
      (next_token l).1
          = Token.Int ((l.input.drop l.position).takeWhile Char.isDigit) ∧
      (next_token l).2.position
          = l.position + ((l.input.drop l.position).takeWhile Char.isDigit).length ∧
      (next_token l).2.input = l.input) ∧
    tokenList (Lexer.new ("foobar".toList)) 2
      = [Token.Ident ("foobar".toList), Token.Eof] ∧
    tokenList (Lexer.new ("12345".toList)) 2
      = [Token.Int ("12345".toList), Token.Eof] := by
  refine ⟨?_, ?_, by decide, by decide⟩
  · intro l c hInv hch hl
    obtain ⟨h1, h2⟩ := next_token_letter_spec hInv hch hl
    refine ⟨h1, ?_, ?_⟩
    · rw [h2]
      exact run_scan_position hInv
    · rw [h2]
      exact run_scan_input hInv
  · intro l c hInv hch hd
    obtain ⟨h1, h2⟩ := next_token_digit_spec hInv hch hd
    refine ⟨h1, ?_, ?_⟩
    · rw [h2]
      exact run_scan_position hInv
    · rw [h2]
      exact run_scan_input hInv

/-- Witness for C5: the general letter clause applied to the concrete
input "ab3", whose current character is the letter a. -/
theorem C5_maximal_munch_witness :
    (next_token (Lexer.new ("ab3".toList))).1
        = lookup_ident ((((Lexer.new ("ab3".toList)).input.drop
            (Lexer.new ("ab3".toList)).position)).takeWhile is_letter) ∧
    (next_token (Lexer.new ("ab3".toList))).2.position
        = (Lexer.new ("ab3".toList)).position
          + ((((Lexer.new ("ab3".toList)).input.drop
              (Lexer.new ("ab3".toList)).position)).takeWhile is_letter).length ∧
    (next_token (Lexer.new ("ab3".toList))).2.input
        = (Lexer.new ("ab3".toList)).input :=
  C5_maximal_munch.1 (Lexer.new ("ab3".toList)) 'a' ⟨rfl, rfl⟩ (by decide)
    (by decide)

/-- C6: `lookup_ident` maps exactly the seven reserved strings to their
payload-free kinds and every other string to Ident with the text
unchanged. -/
theorem C6_lookup_ident :
    lookup_ident ("fn".toList) = Token.Function ∧
    lookup_ident ("let".toList) = Token.Let ∧
    lookup_ident ("if".toList) = Token.If ∧
    lookup_ident ("else".toList) = Token.Else ∧
    lookup_ident ("return".toList) = Token.Return ∧
    lookup_ident ("true".toList) = Token.True ∧
    lookup_ident ("false".toList) = Token.False ∧
    (∀ s : List Char, s ≠ "fn".toList → s ≠ "let".toList → s ≠ "if".toList →
      s ≠ "else".toList → s ≠ "return".toList → s ≠ "true".toList →
      s ≠ "false".toList → lookup_ident s = Token.Ident s) := by
  refine ⟨by decide, by decide, by decide, by decide, by decide, by decide,
    by decide, ?_⟩
  intro s h1 h2 h3 h4 h5 h6 h7
  exact lookup_ident_not_kw h1 h2 h3 h4 h5 h6 h7

/-- Witness for C6: the general non-keyword clause applied to "foo". -/
theorem C6_lookup_ident_witness :
    lookup_ident ("foo".toList) = Token.Ident ("foo".toList) :=
  C6_lookup_ident.2.2.2.2.2.2.2 ("foo".toList) (by decide) (by decide)
    (by decide) (by decide) (by decide) (by decide) (by decide)

/-- C7: every Ident or Int payload produced by `next_token` from a state
satisfying the cursor invariant is a non-empty run of its character class
and a contiguous substring of the source text. -/
theorem C7_payload_runs :
    ∀ (l : Lexer) (s : List Char), Inv l →
      ((next_token l).1 = Token.Ident s →
        s ≠ [] ∧ s.all is_letter = true ∧ List.IsInfix s l.input) ∧
      ((next_token l).1 = Token.Int s →
        s ≠ [] ∧ s.all Char.isDigit = true ∧ List.IsInfix s l.input) := by
  intro l s hInv
  have hswInv : Inv (skip_whitespace l) := Inv_run_scan hInv
  have hswin : (skip_whitespace l).input = l.input := run_scan_input hInv
  constructor
  · intro hid
    rcases next_token_cases l with ⟨he, _⟩ | ⟨c, hc, hl, hnt⟩ | ⟨c, hc, hd, hnt⟩
      | ⟨c, hi⟩ | hmem
    · rw [hid] at he
      exact Token.noConfusion he
    · rw [hnt] at hid
      have hid' : lookup_ident (read_identifier (skip_whitespace l)).1
          = Token.Ident s := hid
      have hs := lookup_ident_eq_ident hid'
      rw [read_identifier_fst hswInv] at hs
      have hdrop := drop_cons_of_inv hswInv hc
      refine ⟨?_, ?_, ?_⟩
      · rw [hs, hdrop, List.takeWhile_cons, if_pos hl]
        simp
      · rw [hs]
        exact all_takeWhile _ _
      · rw [hs, ← hswin]
        exact ((List.takeWhile_prefix _).isInfix).trans
          ((List.drop_suffix _ _).isInfix)
    · rw [hnt] at hid
      simp at hid
    · rw [hid] at hi
      exact Token.noConfusion hi
    · rw [hid] at hmem
      simp at hmem
  · intro hint
    rcases next_token_cases l with ⟨he, _⟩ | ⟨c, hc, hl, hnt⟩ | ⟨c, hc, hd, hnt⟩
      | ⟨c, hi⟩ | hmem
    · rw [hint] at he
      exact Token.noConfusion he
    · rw [hnt] at hint
      have hint' : lookup_ident (read_identifier (skip_whitespace l)).1
          = Token.Int s := hint
      exact absurd hint' (lookup_ident_ne_int _ _)
    · rw [hnt] at hint
      have hint' : Token.Int (read_number (skip_whitespace l)).1
          = Token.Int s := hint
      have hs : s = (read_number (skip_whitespace l)).1 := (Token.Int.inj hint').symm
      rw [read_number_fst hswInv] at hs
      have hdrop := drop_cons_of_inv hswInv hc
      refine ⟨?_, ?_, ?_⟩
      · rw [hs, hdrop, List.takeWhile_cons, if_pos hd]
        simp
      · rw [hs]
        exact all_takeWhile _ _
      · rw [hs, ← hswin]
        exact ((List.takeWhile_prefix _).isInfix).trans
          ((List.drop_suffix _ _).isInfix)
    · rw [hint] at hi
      exact Token.noConfusion hi
    · rw [hint] at hmem
      simp at hmem

/-- Witness for C7: the Ident clause applied to the concrete input "ab". -/
theorem C7_payload_runs_witness :
    ("ab".toList ≠ [] ∧ ("ab".toList).all is_letter = true ∧
      List.IsInfix ("ab".toList) (Lexer.new ("ab".toList)).input) :=
  (C7_payload_runs (Lexer.new ("ab".toList)) ("ab".toList) ⟨rfl, rfl⟩).1
    (by decide)


/-- C8: the cursor invariant — read-ahead index equals current position
plus one, and the optional current character equals the source character
at the current position, being present exactly when that position is
within the source — holds after construction (with the first character,
if any, current) and is preserved by every `next_token` call. -/
theorem C8_cursor_invariant :
    (∀ s : List Char, cursor_inv (Lexer.new s) ∧ (Lexer.new s).ch = s[0]?) ∧
    (∀ l : Lexer, cursor_inv l → cursor_inv (next_token l).2) := by
  constructor
  · intro s
    refine ⟨cursor_inv_of_inv (Inv_new s), ?_⟩
    have h := (Inv_new s).2
    simpa using h
  · intro l hl
    exact cursor_inv_of_inv (Inv_next_token (inv_of_cursor_inv hl))

/-- Witness for C8: preservation applied to the concrete state built
over "a+". -/
theorem C8_cursor_invariant_witness :
    cursor_inv (next_token (Lexer.new ("a+".toList))).2 :=
  C8_cursor_invariant.2 (Lexer.new ("a+".toList)) ⟨rfl, rfl, by decide⟩

/-- C9: tokenization is deterministic — two lexers constructed over equal
inputs produce equal token sequences under the same number of
`next_token` calls (the embedding is a pure function of the input). -/
theorem C9_deterministic :
    ∀ s t : List Char, s = t →
      ∀ n : Nat, tokenList (Lexer.new s) n = tokenList (Lexer.new t) n := by
  intro s t h n
  rw [h]

/-- Witness for C9 at the concrete input "x=1". -/
theorem C9_deterministic_witness :
    tokenList (Lexer.new ("x=1".toList)) 4
      = tokenList (Lexer.new ("x=1".toList)) 4 :=
  C9_deterministic ("x=1".toList) ("x=1".toList) rfl 4

/-- C10: Eof is absorbing — once a `next_token` call on a reachable state
returns Eof, the current character is and remains absent, and every later
call returns Eof again. -/
theorem C10_eof_absorbing :
    ∀ l : Lexer, Inv l → (next_token l).1 = Token.Eof →
      ∀ n : Nat, (lexState (next_token l).2 n).ch = none ∧
        tokenAt (next_token l).2 n = Token.Eof := by
  intro l hInv hEof
  have hswch : (skip_whitespace l).ch = none := eof_of_next_token hEof
  have hswInv : Inv (skip_whitespace l) := Inv_run_scan hInv
  have h2 : (next_token l).2 = read_char (skip_whitespace l) := by
    rw [next_token_eof hswch]
  have base : ((next_token l).2).ch = none ∧ Inv (next_token l).2 := by
    rw [h2]
    exact ⟨(ch_none_step hswInv hswch).2, Inv_read_char _⟩
  have main : ∀ (n : Nat) (l' : Lexer), l'.ch = none → Inv l' →
      (lexState l' n).ch = none ∧ Inv (lexState l' n) := by
    intro n
    induction n with
    | zero =>
      intro l' hch hInv'
      exact ⟨hch, hInv'⟩
    | succ n ih =>
      intro l' hch hInv'
      obtain ⟨hstep, hchn⟩ := ch_none_step hInv' hch
      have hexp : lexState l' (n + 1) = lexState (next_token l').2 n := rfl
      rw [hexp, hstep]
      exact ih (read_char l') hchn (Inv_read_char _)
  intro n
  obtain ⟨hn1, hn2⟩ := main n (next_token l).2 base.1 base.2
  refine ⟨hn1, ?_⟩
  unfold tokenAt
  rw [(ch_none_step hn2 hn1).1]

/-- Witness for C10: the empty input reaches Eof immediately and stays
there. -/
theorem C10_eof_absorbing_witness :
    (lexState (next_token (Lexer.new [])).2 2).ch = none ∧
    tokenAt (next_token (Lexer.new [])).2 2 = Token.Eof :=
  C10_eof_absorbing (Lexer.new []) ⟨rfl, rfl⟩ (by decide) 2

end Monkey
